import Mathlib

/-!
# Downloader.go: a request-coalescing download pipeline in CSP style

Shallow embedding of `src/Downloader.go`.

* The value types `Reference`, `Location`, `Content`, `LocContent` and the pure
  functions `resolveLocation`, `downloadContent` are translated directly
  (the `log` calls and the `time.Sleep` only print and wait; they are left out).
* The `requested` map of `downloader` is a partial function from locations to
  lists of references (`none` = key absent).
* The two `select` branches of `downloader` are the functions `downloaderRef`
  (lines 43-51) and `downloaderContents` (lines 52-57).  Each returns the new
  table together with the observable actions the branch performs, in program
  order: sends on `locations` and calls of `processContent`.
* `downloader` runs the loop over a sequence of received messages.
* `step` is the interleaving semantics of the whole system built by
  `processReferences`: one downloader, `nWorkers` workers, and rendezvous
  (unbuffered) channels `locations` and `contents`.
* `worker` is the loop of a worker as a function from the locations it
  receives to the completion events it sends; `workerReceived` and
  `workerSent` read the history of one worker off a run of the system.
-/

namespace Downloader

/-! ## Data model (lines 8-13) -/

/-- The constant `nWorkers` (line 8). -/
def nWorkers : Nat := 4

/-- The struct `Reference` (line 10). -/
structure Reference where
  index : Int
  deriving DecidableEq, Repr

/-- The struct `Location` (line 11). -/
structure Location where
  index : Int
  deriving DecidableEq, Repr

/-- The struct `Content` (line 12). -/
structure Content where
  index : Int
  deriving DecidableEq, Repr

/-- The struct `LocContent` (line 13). -/
structure LocContent where
  loc : Location
  content : Content
  deriving DecidableEq, Repr

/-- The method `resolveLocation` (lines 15-18). -/
def Reference.resolveLocation (ref : Reference) : Location :=
  ⟨ref.index⟩

/-- The function `downloadContent` (lines 20-24). -/
def downloadContent (loc : Location) : Content :=
  ⟨loc.index⟩

/-- Observable actions of the downloader goroutine: a send on the `locations`
channel (line 48) and a call of `processContent` (line 56). -/
inductive Effect where
  | send (loc : Location)
  | process (ref : Reference) (content : Content)
  deriving DecidableEq, Repr

/-- The function `processContent` (lines 26-28): the call itself is the
observable action. -/
def processContent (ref : Reference) (content : Content) : Effect :=
  Effect.process ref content

/-- The map `requested` of type `map[Location][]Reference` (line 40):
`none` means the key is absent. -/
abbrev Table := Location → Option (List Reference)

/-- The value of `make(map[Location][]Reference)` (line 40). -/
def Table.empty : Table := fun _ => none

/-- The assignment `requested[loc] = refs`. -/
def Table.set (requested : Table) (loc : Location) (refs : List Reference) : Table :=
  Function.update requested loc (some refs)

/-- The statement `delete(requested, loc)`. -/
def Table.delete (requested : Table) (loc : Location) : Table :=
  Function.update requested loc none

/-- The read `requested[loc]` in its one-result form (line 53): the zero value
(the nil slice) when the key is absent. -/
def Table.read (requested : Table) (loc : Location) : List Reference :=
  (requested loc).getD []

/-! ## The two branches of the `select` in `downloader` -/

/-- The branch `case ref := <-references` (lines 43-51). -/
def downloaderRef (requested : Table) (ref : Reference) : Table × List Effect :=
  let loc := ref.resolveLocation
  match requested loc with
  | none => (requested.set loc [ref], [Effect.send loc])
  | some refs => (requested.set loc (refs ++ [ref]), [])

/-- The branch `case lc := <-contents` (lines 52-57). -/
def downloaderContents (requested : Table) (lc : LocContent) : Table × List Effect :=
  let refs := requested.read lc.loc
  (requested.delete lc.loc, refs.map (fun ref => processContent ref lc.content))

/-- Ways in which a branch of the downloader can end other than by returning. -/
inductive Abort where
  | protocolViolation
  deriving DecidableEq, Repr

/-- The branch `case lc := <-contents` with its way of ending made explicit.
Reading a missing key of a Go map yields the zero value, `delete` of a missing
key does nothing and `range` over a nil slice runs no iteration: the branch has
no statement that can abort, so it always returns. -/
def downloaderContentsOutcome (requested : Table) (lc : LocContent) :
    Except Abort (Table × List Effect) :=
  Except.ok (downloaderContents requested lc)

/-! ## The downloader loop over a sequence of received messages -/

/-- What the `select` of `downloader` can receive. -/
inductive Msg where
  | reference (ref : Reference)
  | contents (lc : LocContent)
  deriving DecidableEq, Repr

/-- One iteration of the `for` loop of `downloader` (lines 41-59). -/
def downloaderIter (requested : Table) : Msg → Table × List Effect
  | Msg.reference ref => downloaderRef requested ref
  | Msg.contents lc => downloaderContents requested lc

/-- The loop of `downloader` run on the messages it receives, in order, from
the table `requested`; the result is the final table and all actions
performed, oldest first. -/
def downloader : List Msg → Table → Table × List Effect
  | [], requested => (requested, [])
  | m :: ms, requested =>
    let r := downloaderIter requested m
    let rest := downloader ms r.1
    (rest.1, r.2 ++ rest.2)

/-- Number of sends of `loc` on the `locations` channel in a list of actions. -/
def sendCount (loc : Location) (effs : List Effect) : Nat :=
  effs.count (Effect.send loc)

/-- Number of completions for `loc` among the received messages. -/
def completionCount (loc : Location) : List Msg → Nat
  | [] => 0
  | Msg.contents lc :: ms => (if lc.loc = loc then 1 else 0) + completionCount loc ms
  | Msg.reference _ :: ms => completionCount loc ms

/-- The references among the received messages that resolve to `loc`, in the
order in which they were received. -/
def submittedFor (loc : Location) : List Msg → List Reference
  | [] => []
  | Msg.reference ref :: ms =>
    if ref.resolveLocation = loc then ref :: submittedFor loc ms else submittedFor loc ms
  | Msg.contents _ :: ms => submittedFor loc ms

/-! ## The system built by `processReferences` -/

/-- Where the downloader goroutine stands: at its `select` (line 42), or
blocked in the send `locations <- loc` of line 48. -/
inductive DlState where
  | selecting
  | sending (loc : Location)
  deriving DecidableEq, Repr

/-- Where a worker goroutine stands: at the receive of `range locations`
(line 66), inside `downloadContent(loc)` (line 67), or blocked in the send
`contents <- LocContent{loc, content}` (line 68). -/
inductive WorkerState where
  | receiving
  | downloading (loc : Location)
  | sending (lc : LocContent)
  deriving DecidableEq, Repr

/-- One iteration of the loop of `worker` (lines 67-68): the completion event
the worker sends for the location it received. -/
def workerIter (loc : Location) : LocContent :=
  ⟨loc, downloadContent loc⟩

/-- The loop of `worker` (lines 66-69) run on the locations it receives, in
order; the result is the completion events it sends, oldest first. -/
def worker : List Location → List LocContent
  | [] => []
  | loc :: locs => workerIter loc :: worker locs

/-- State of the system of goroutines started by `processReferences`.
The fields `trace` and `completed` are history: the actions the downloader has
performed so far (a send is recorded when the downloader reaches line 48) and
the completion events it has received so far. -/
structure System where
  requested : Table
  dl : DlState
  workers : List WorkerState
  trace : List Effect
  completed : List LocContent

/-- The atomic steps of the system. Both channels `locations` and `contents`
are unbuffered (lines 73-74), so a send and its receive happen together. -/
inductive Action where
  | reference (ref : Reference)
  | dispatch (i : Nat)
  | download (i : Nat)
  | complete (i : Nat)
  deriving DecidableEq, Repr

/-- One step of the system, `none` when the action is not enabled.

* `reference ref`: the downloader, at its `select`, receives `ref` and runs
  lines 44-51; when the location is new it ends blocked in the send of line 48.
* `dispatch i`: the downloader's pending send on `locations` meets the receive
  of worker `i` (line 48 with line 66).
* `download i`: worker `i` returns from `downloadContent` (line 67) and reaches
  its send on `contents`.
* `complete i`: the pending send of worker `i` on `contents` meets the
  downloader's `select`, which runs lines 53-57. -/
def step (s : System) : Action → Option System
  | Action.reference ref =>
    match s.dl with
    | DlState.selecting =>
      let r := downloaderRef s.requested ref
      some { s with
        requested := r.1
        trace := s.trace ++ r.2
        dl := match s.requested ref.resolveLocation with
          | none => DlState.sending ref.resolveLocation
          | some _ => DlState.selecting }
    | DlState.sending _ => none
  | Action.dispatch i =>
    match s.dl, s.workers[i]? with
    | DlState.sending loc, some WorkerState.receiving =>
      some { s with
        dl := DlState.selecting
        workers := s.workers.set i (WorkerState.downloading loc) }
    | _, _ => none
  | Action.download i =>
    match s.workers[i]? with
    | some (WorkerState.downloading loc) =>
      some { s with workers := s.workers.set i (WorkerState.sending (workerIter loc)) }
    | _ => none
  | Action.complete i =>
    match s.dl, s.workers[i]? with
    | DlState.selecting, some (WorkerState.sending lc) =>
      let r := downloaderContents s.requested lc
      some { s with
        requested := r.1
        trace := s.trace ++ r.2
        workers := s.workers.set i WorkerState.receiving
        completed := s.completed ++ [lc] }
    | _, _ => none

/-- The system right after `processReferences` (lines 72-77): `nWorkers`
workers at their receive, the downloader at its `select` with the empty map. -/
def processReferences : System where
  requested := Table.empty
  dl := DlState.selecting
  workers := List.replicate nWorkers WorkerState.receiving
  trace := []
  completed := []

/-- Run a schedule of actions, `none` when one of them is not enabled. -/
def run : List Action → System → Option System
  | [], s => some s
  | a :: as, s => (step s a).bind (run as)

/-- States of the system reachable from its start, for an arbitrary producer
on the `references` channel. -/
def Reachable (s : System) : Prop :=
  ∃ acts, run acts processReferences = some s

/-- Whether a worker holds the fetch of `loc`: it is downloading it or is
waiting to hand over its completion. -/
def WorkerState.holds (loc : Location) : WorkerState → Bool
  | WorkerState.receiving => false
  | WorkerState.downloading l => decide (l = loc)
  | WorkerState.sending lc => decide (lc.loc = loc)

/-- Whether the downloader is blocked in the send of `loc`. -/
def DlState.holds (loc : Location) : DlState → Bool
  | DlState.selecting => false
  | DlState.sending l => decide (l = loc)

/-- Number of fetches of `loc` in flight: the downloader's pending send of it,
the workers executing `downloadContent` on it and the workers with a pending
completion for it. -/
def inFlight (s : System) (loc : Location) : Nat :=
  (if s.dl.holds loc then 1 else 0) + s.workers.countP (WorkerState.holds loc)

/-- Number of completion events for `loc` in a list of completion events. -/
def completedCount (loc : Location) (lcs : List LocContent) : Nat :=
  lcs.countP (fun lc => decide (lc.loc = loc))

/-- Addition of the Go type `int`, taken as 64 bits wide: the result wraps
around in two's complement. -/
def intAdd (a b : Int) : Int :=
  (a + b + 2 ^ 63) % 2 ^ 64 - 2 ^ 63

/-- The system together with the producer of `main` (lines 79-85): `index` is
the loop variable, and `main` is always at the send
`references <- Reference{index}`. -/
structure MainSystem where
  index : Int
  sys : System

/-- One step of the system driven by `main`: the only reference the downloader
can receive is `Reference{index}`, after which `main` increments `index`. -/
def mainStep (m : MainSystem) : Action → Option MainSystem
  | Action.reference ref =>
    if ref = ⟨m.index⟩ then
      (step m.sys (Action.reference ref)).map (fun s => ⟨intAdd m.index 1, s⟩)
    else none
  | a => (step m.sys a).map (fun s => ⟨m.index, s⟩)

/-- The program `main` at the first send of its loop (line 83). -/
def main : MainSystem :=
  ⟨1, processReferences⟩

/-- Run a schedule of actions of the system driven by `main`. -/
def mainRun : List Action → MainSystem → Option MainSystem
  | [], m => some m
  | a :: as, m => (mainStep m a).bind (mainRun as)

/-- The schedule in which `main` submits references 1 to 5, the first four
locations go to the four workers, and the workers finish their downloads while
the downloader is sending the fifth location. -/
def deadlockSchedule : List Action :=
  [Action.reference ⟨1⟩, Action.dispatch 0, Action.reference ⟨2⟩, Action.dispatch 1,
   Action.reference ⟨3⟩, Action.dispatch 2, Action.reference ⟨4⟩, Action.dispatch 3,
   Action.reference ⟨5⟩,
   Action.download 0, Action.download 1, Action.download 2, Action.download 3]

/-- The state of the system driven by `main` at the end of `deadlockSchedule`:
`main` is at the send of reference 6, the downloader is blocked in the send of
location 5, and each of the four workers is blocked in the send of its
completion. -/
def deadlockState : MainSystem where
  index := 6
  sys :=
    { requested :=
        ((((Table.empty.set ⟨1⟩ [⟨1⟩]).set ⟨2⟩ [⟨2⟩]).set ⟨3⟩ [⟨3⟩]).set ⟨4⟩ [⟨4⟩]).set ⟨5⟩ [⟨5⟩]
      dl := DlState.sending ⟨5⟩
      workers :=
        [WorkerState.sending ⟨⟨1⟩, ⟨1⟩⟩, WorkerState.sending ⟨⟨2⟩, ⟨2⟩⟩,
         WorkerState.sending ⟨⟨3⟩, ⟨3⟩⟩, WorkerState.sending ⟨⟨4⟩, ⟨4⟩⟩]
      trace :=
        [Effect.send ⟨1⟩, Effect.send ⟨2⟩, Effect.send ⟨3⟩, Effect.send ⟨4⟩, Effect.send ⟨5⟩]
      completed := [] }

/-- The state of the system after reference 1, its dispatch to worker 0 and
reference 2: worker 0 downloads location 1 and the downloader is in the send
of location 2. -/
def sendingState : System where
  requested := (Table.empty.set ⟨1⟩ [⟨1⟩]).set ⟨2⟩ [⟨2⟩]
  dl := DlState.sending ⟨2⟩
  workers :=
    [WorkerState.downloading ⟨1⟩, WorkerState.receiving, WorkerState.receiving,
     WorkerState.receiving]
  trace := [Effect.send ⟨1⟩, Effect.send ⟨2⟩]
  completed := []

/-- The state of the system after reference 1 twice (the second arriving while
worker 0 downloads) and reference 2, with location 1 completed and location 2
being downloaded by worker 1. -/
def completedState : System where
  requested :=
    (((Table.empty.set ⟨1⟩ [⟨1⟩]).set ⟨1⟩ ([⟨1⟩] ++ [⟨1⟩])).set ⟨2⟩ [⟨2⟩]).delete ⟨1⟩
  dl := DlState.selecting
  workers :=
    [WorkerState.receiving, WorkerState.downloading ⟨2⟩, WorkerState.receiving,
     WorkerState.receiving]
  trace :=
    [Effect.send ⟨1⟩, Effect.send ⟨2⟩, Effect.process ⟨1⟩ ⟨1⟩, Effect.process ⟨1⟩ ⟨1⟩]
  completed := [⟨⟨1⟩, ⟨1⟩⟩]

/-- The invariant of the system, for each location: the location is a key of
`requested` exactly when one fetch of it is in flight (and then only one), and
the sends decided for it are the completions received for it plus the fetch in
flight. -/
def Invariant (s : System) : Prop :=
  ∀ loc : Location,
    inFlight s loc = (if s.requested loc = none then 0 else 1) ∧
    sendCount loc s.trace = completedCount loc s.completed + inFlight s loc

/-! ## Delivery, worker history and pool size -/

/-- All references among the received messages, in the order received. -/
def submitted : List Msg → List Reference
  | [] => []
  | Msg.reference ref :: ms => ref :: submitted ms
  | Msg.contents _ :: ms => submitted ms

/-- The references passed to `processContent` in a list of actions, in the
order of the calls. -/
def processed : List Effect → List Reference
  | [] => []
  | Effect.process ref _ :: effs => ref :: processed effs
  | Effect.send _ :: effs => processed effs

/-- Every list of the table holds only references that resolve to its key. -/
def WellKeyed (requested : Table) : Prop :=
  ∀ (loc : Location) (ref : Reference), ref ∈ requested.read loc → ref.resolveLocation = loc

/-- No key of the table maps to the empty list. -/
def NonEmptyLists (requested : Table) : Prop :=
  ∀ loc : Location, requested loc ≠ some []

/-- The location worker `i` receives in the step `a` from state `s`
(line 66): the one the downloader is sending, when `a` is `dispatch i`. -/
def receivedBy (i : Nat) (s : System) : Action → List Location
  | Action.dispatch j =>
    match s.dl with
    | DlState.sending loc => if j = i then [loc] else []
    | DlState.selecting => []
  | _ => []

/-- The completion event worker `i` sends in the step `a` from state `s`
(line 68): its pending one, when `a` is `complete i`. -/
def sentBy (i : Nat) (s : System) : Action → List LocContent
  | Action.complete j =>
    match s.workers[i]? with
    | some (WorkerState.sending lc) => if j = i then [lc] else []
    | _ => []
  | _ => []

/-- The locations worker `i` receives along a schedule run from `s`, oldest
first. -/
def workerReceived (i : Nat) : List Action → System → List Location
  | [], _ => []
  | a :: as, s =>
    match step s a with
    | none => []
    | some s' => receivedBy i s a ++ workerReceived i as s'

/-- The completion events worker `i` sends along a schedule run from `s`,
oldest first. -/
def workerSent (i : Nat) : List Action → System → List LocContent
  | [], _ => []
  | a :: as, s =>
    match step s a with
    | none => []
    | some s' => sentBy i s a ++ workerSent i as s'

/-- The completion event a worker still owes for the location it has
received: none at its receive, otherwise the one it is computing or sending. -/
def WorkerState.owed : WorkerState → List LocContent
  | WorkerState.receiving => []
  | WorkerState.downloading loc => [workerIter loc]
  | WorkerState.sending lc => [lc]

/-- The completion event worker `i` owes in state `s`. -/
def owedBy (i : Nat) (s : System) : List LocContent :=
  match s.workers[i]? with
  | some w => w.owed
  | none => []

/-- Whether a worker is inside `downloadContent` (line 67). -/
def WorkerState.isDownloading : WorkerState → Bool
  | WorkerState.downloading _ => true
  | _ => false

/-- Number of `downloadContent` invocations executing in state `s`. -/
def executing (s : System) : Nat :=
  s.workers.countP WorkerState.isDownloading

/-- The invariant behind the contents passed to `processContent`: the table
is well keyed, every pending completion carries the downloaded content of its
location, and every call made so far passed the content of the location its
reference resolves to. -/
def ContentInvariant (s : System) : Prop :=
  WellKeyed s.requested ∧
  (∀ lc : LocContent, WorkerState.sending lc ∈ s.workers → lc.content = downloadContent lc.loc) ∧
  (∀ (ref : Reference) (content : Content), Effect.process ref content ∈ s.trace →
    content = downloadContent ref.resolveLocation)

/-! ## Theorems on the branches -/

/-- C1. Submit on an absent location: when the resolved location of `ref` is not
a key of the table, the reference branch leaves the table with the one-element
list `[ref]` at that key and performs exactly one action, the send of that
location on `locations`. -/
theorem submit_absent (requested : Table) (ref : Reference)
    (h : requested ref.resolveLocation = none) :
    (downloaderRef requested ref).1 ref.resolveLocation = some [ref] ∧
    (downloaderRef requested ref).2 = [Effect.send ref.resolveLocation] := by
  simp [downloaderRef, h, Table.set]

/-- The statement of C1 at the empty table and reference 7. -/
theorem submit_absent_witness :
    Table.empty (Reference.resolveLocation ⟨7⟩) = none ∧
    (downloaderRef Table.empty ⟨7⟩).1 (Reference.resolveLocation ⟨7⟩) = some [⟨7⟩] ∧
    (downloaderRef Table.empty ⟨7⟩).2 = [Effect.send (Reference.resolveLocation ⟨7⟩)] :=
  ⟨rfl, submit_absent Table.empty ⟨7⟩ rfl⟩

/-- C2. Submit on a present location: when the resolved location of `ref` is a
key of the table with list `refs`, the reference branch sets that key to `refs`
with `ref` appended at the end and sends nothing (it performs no action). -/
theorem submit_present (requested : Table) (ref : Reference) (refs : List Reference)
    (h : requested ref.resolveLocation = some refs) :
    (downloaderRef requested ref).1 ref.resolveLocation = some (refs ++ [ref]) ∧
    (downloaderRef requested ref).2 = [] := by
  simp [downloaderRef, h, Table.set]

/-- The statement of C2 at the table holding reference 7 for location 7. -/
theorem submit_present_witness :
    (Table.empty.set ⟨7⟩ [⟨7⟩]) (Reference.resolveLocation ⟨7⟩) = some [⟨7⟩] ∧
    (downloaderRef (Table.empty.set ⟨7⟩ [⟨7⟩]) ⟨7⟩).1 (Reference.resolveLocation ⟨7⟩)
      = some ([⟨7⟩] ++ [⟨7⟩]) ∧
    (downloaderRef (Table.empty.set ⟨7⟩ [⟨7⟩]) ⟨7⟩).2 = [] :=
  ⟨rfl, submit_present (Table.empty.set ⟨7⟩ [⟨7⟩]) ⟨7⟩ [⟨7⟩] rfl⟩

/-- C3. Completion fan-out: when `lc.loc` is a key of the table with list
`refs`, the contents branch removes that key and its actions are exactly the
calls `processContent ref lc.content` for the elements `ref` of `refs`, in the
order of the list, and nothing else. -/
theorem completion_fan_out (requested : Table) (lc : LocContent) (refs : List Reference)
    (h : requested lc.loc = some refs) :
    (downloaderContents requested lc).1 lc.loc = none ∧
    (downloaderContents requested lc).2 = refs.map (fun ref => processContent ref lc.content) := by
  simp [downloaderContents, Table.delete, Table.read, h]

/-- The statement of C3 at a table with two waiters for location 7. -/
theorem completion_fan_out_witness :
    (Table.empty.set ⟨7⟩ [⟨7⟩, ⟨7⟩]) (LocContent.mk ⟨7⟩ ⟨7⟩).loc = some [⟨7⟩, ⟨7⟩] ∧
    (downloaderContents (Table.empty.set ⟨7⟩ [⟨7⟩, ⟨7⟩]) ⟨⟨7⟩, ⟨7⟩⟩).1
      (LocContent.mk ⟨7⟩ ⟨7⟩).loc = none ∧
    (downloaderContents (Table.empty.set ⟨7⟩ [⟨7⟩, ⟨7⟩]) ⟨⟨7⟩, ⟨7⟩⟩).2
      = [(⟨7⟩ : Reference), ⟨7⟩].map (fun ref => processContent ref (LocContent.mk ⟨7⟩ ⟨7⟩).content) :=
  ⟨rfl, completion_fan_out (Table.empty.set ⟨7⟩ [⟨7⟩, ⟨7⟩]) ⟨⟨7⟩, ⟨7⟩⟩ [⟨7⟩, ⟨7⟩] rfl⟩

/-! ## Lemmas on the downloader loop -/

theorem downloaderRef_none (requested : Table) (ref : Reference)
    (h : requested ref.resolveLocation = none) :
    downloaderRef requested ref =
      (requested.set ref.resolveLocation [ref], [Effect.send ref.resolveLocation]) := by
  simp [downloaderRef, h]

theorem downloaderRef_some (requested : Table) (ref : Reference) (refs : List Reference)
    (h : requested ref.resolveLocation = some refs) :
    downloaderRef requested ref = (requested.set ref.resolveLocation (refs ++ [ref]), []) := by
  simp [downloaderRef, h]

theorem downloaderRef_self_ne_none (requested : Table) (ref : Reference) :
    (downloaderRef requested ref).1 ref.resolveLocation ≠ none := by
  cases hr : requested ref.resolveLocation with
  | none => simp [downloaderRef_none _ _ hr, Table.set]
  | some refs => simp [downloaderRef_some _ _ _ hr, Table.set]

theorem downloaderRef_other (requested : Table) (ref : Reference) (loc : Location)
    (h : ref.resolveLocation ≠ loc) : (downloaderRef requested ref).1 loc = requested loc := by
  cases hr : requested ref.resolveLocation with
  | none => simp [downloaderRef_none _ _ hr, Table.set, Function.update, Ne.symm h]
  | some refs => simp [downloaderRef_some _ _ _ hr, Table.set, Function.update, Ne.symm h]

theorem downloaderContents_other (requested : Table) (lc : LocContent) (loc : Location)
    (h : lc.loc ≠ loc) : (downloaderContents requested lc).1 loc = requested loc := by
  simp [downloaderContents, Table.delete, Function.update, Ne.symm h]

theorem sendCount_downloaderRef (requested : Table) (ref : Reference) (loc : Location) :
    sendCount loc (downloaderRef requested ref).2 =
      if ref.resolveLocation = loc ∧ requested loc = none then 1 else 0 := by
  unfold sendCount
  by_cases h : ref.resolveLocation = loc
  · subst h
    cases hr : requested ref.resolveLocation with
    | none => simp [downloaderRef_none _ _ hr]
    | some refs => simp [downloaderRef_some _ _ _ hr]
  · have h2 : Effect.send ref.resolveLocation ≠ Effect.send loc := by
      intro e; injection e with e; exact h e
    cases hr : requested ref.resolveLocation with
    | none =>
      rw [downloaderRef_none _ _ hr]
      simp [List.count_cons, List.count_nil, h]
    | some refs => simp [downloaderRef_some _ _ _ hr, h]

theorem sendCount_downloaderContents (requested : Table) (lc : LocContent) (loc : Location) :
    sendCount loc (downloaderContents requested lc).2 = 0 := by
  simp [downloaderContents, sendCount, processContent, List.count_eq_zero]

theorem sendCount_append (loc : Location) (xs ys : List Effect) :
    sendCount loc (xs ++ ys) = sendCount loc xs + sendCount loc ys := by
  simp [sendCount]

theorem downloader_append (ms ns : List Msg) (requested : Table) :
    downloader (ms ++ ns) requested =
      ((downloader ns (downloader ms requested).1).1,
        (downloader ms requested).2 ++ (downloader ns (downloader ms requested).1).2) := by
  induction ms generalizing requested with
  | nil => simp [downloader]
  | cons m ms ih => simp [downloader, ih]

/-- While no completion for `loc` is received, the list waiting at `loc` grows
by exactly the references received for `loc`, in their order. -/
theorem read_downloader (msgs : List Msg) (requested : Table) (loc : Location)
    (h : completionCount loc msgs = 0) :
    (downloader msgs requested).1.read loc = requested.read loc ++ submittedFor loc msgs := by
  induction msgs generalizing requested with
  | nil => simp [downloader, submittedFor]
  | cons m ms ih =>
    cases m with
    | reference ref =>
      have h2 : completionCount loc ms = 0 := by simpa [completionCount] using h
      simp only [downloader, downloaderIter, submittedFor]
      rw [ih _ h2]
      by_cases e : ref.resolveLocation = loc
      · subst e
        cases hr : requested ref.resolveLocation with
        | none => simp [downloaderRef_none _ _ hr, Table.read, Table.set, hr]
        | some refs => simp [downloaderRef_some _ _ _ hr, Table.read, Table.set, hr]
      · simp [Table.read, downloaderRef_other requested ref loc e, e]
    | contents lc =>
      have h1 : lc.loc ≠ loc := by
        intro e; simp [completionCount, e] at h
      have h2 : completionCount loc ms = 0 := by simpa [completionCount, h1] using h
      simp only [downloader, downloaderIter, submittedFor]
      rw [ih _ h2]
      simp [Table.read, downloaderContents_other requested lc loc h1]

/-- While no completion for `loc` is received, `loc` is sent once if it was
absent and a reference for it is received, and not at all otherwise. -/
theorem sendCount_downloader (msgs : List Msg) (requested : Table) (loc : Location)
    (h : completionCount loc msgs = 0) :
    sendCount loc (downloader msgs requested).2 =
      if requested loc = none ∧ submittedFor loc msgs ≠ [] then 1 else 0 := by
  induction msgs generalizing requested with
  | nil => simp [downloader, submittedFor, sendCount]
  | cons m ms ih =>
    cases m with
    | reference ref =>
      have h2 : completionCount loc ms = 0 := by simpa [completionCount] using h
      simp only [downloader, downloaderIter, submittedFor, sendCount_append]
      rw [ih _ h2, sendCount_downloaderRef]
      by_cases e : ref.resolveLocation = loc
      · subst e
        have hs := downloaderRef_self_ne_none requested ref
        cases hr : requested ref.resolveLocation <;> simp [hs]
      · simp [downloaderRef_other requested ref loc e, e]
    | contents lc =>
      have h1 : lc.loc ≠ loc := by
        intro e; simp [completionCount, e] at h
      have h2 : completionCount loc ms = 0 := by simpa [completionCount, h1] using h
      simp only [downloader, downloaderIter, submittedFor, sendCount_append]
      rw [ih _ h2, sendCount_downloaderContents]
      simp [downloaderContents_other requested lc loc h1]

/-- Sends of `loc` are bounded by the completions received for `loc`, plus
one when `loc` is absent at the start. -/
theorem sendCount_le (msgs : List Msg) (requested : Table) (loc : Location) :
    sendCount loc (downloader msgs requested).2 ≤
      completionCount loc msgs + (if requested loc = none then 1 else 0) := by
  induction msgs generalizing requested with
  | nil => simp [downloader, sendCount]
  | cons m ms ih =>
    cases m with
    | reference ref =>
      simp only [downloader, downloaderIter, completionCount, sendCount_append]
      have := ih (downloaderRef requested ref).1
      rw [sendCount_downloaderRef]
      by_cases e : ref.resolveLocation = loc
      · subst e
        have hs := downloaderRef_self_ne_none requested ref
        simp only [hs, if_false] at this
        by_cases hr : requested ref.resolveLocation = none
        · simp only [hr, and_self, if_true]; omega
        · simp only [hr, and_false, if_false]; omega
      · rw [downloaderRef_other requested ref loc e] at this
        simp only [e, false_and, if_false]
        omega
    | contents lc =>
      simp only [downloader, downloaderIter, completionCount, sendCount_append]
      have := ih (downloaderContents requested lc).1
      rw [sendCount_downloaderContents]
      by_cases e : lc.loc = loc
      · simp only [e, if_true]
        split at this <;> split <;> omega
      · rw [downloaderContents_other requested lc loc e] at this
        simp only [e, if_false]
        omega

/-! ## Theorems on the downloader loop -/

/-- C4. Coalescing: when the downloader, from a table without `loc`, receives
messages among which N >= 1 references resolve to `loc` and none is a
completion for `loc`, it sends `loc` on `locations` exactly once, and the
completion `(loc, content)` arriving next makes exactly N calls of
`processContent`, one per submitted reference, each with that `content`. -/
theorem coalescing (requested : Table) (msgs : List Msg) (loc : Location)
    (content : Content) (N : Nat)
    (hN : 1 ≤ N) (hrefs : (submittedFor loc msgs).length = N)
    (habsent : requested loc = none) (hnone : completionCount loc msgs = 0) :
    sendCount loc (downloader msgs requested).2 = 1 ∧
    (downloaderContents (downloader msgs requested).1 ⟨loc, content⟩).2 =
      (submittedFor loc msgs).map (fun ref => processContent ref content) ∧
    (downloaderContents (downloader msgs requested).1 ⟨loc, content⟩).2.length = N := by
  have hne : submittedFor loc msgs ≠ [] := by
    intro e; rw [e] at hrefs; simp at hrefs; omega
  have hread := read_downloader msgs requested loc hnone
  have h0 : requested.read loc = [] := by simp [Table.read, habsent]
  rw [h0, List.nil_append] at hread
  refine ⟨?_, ?_, ?_⟩
  · rw [sendCount_downloader msgs requested loc hnone]
    simp [habsent, hne]
  · simp [downloaderContents, hread]
  · simp [downloaderContents, hread, hrefs]

/-- The statement of C4 for references 7, 8, 7 from the empty table. -/
theorem coalescing_witness :
    sendCount ⟨7⟩ (downloader [Msg.reference ⟨7⟩, Msg.reference ⟨8⟩, Msg.reference ⟨7⟩]
      Table.empty).2 = 1 ∧
    (downloaderContents (downloader [Msg.reference ⟨7⟩, Msg.reference ⟨8⟩, Msg.reference ⟨7⟩]
      Table.empty).1 ⟨⟨7⟩, ⟨7⟩⟩).2 =
      (submittedFor ⟨7⟩ [Msg.reference ⟨7⟩, Msg.reference ⟨8⟩, Msg.reference ⟨7⟩]).map
        (fun ref => processContent ref ⟨7⟩) ∧
    (downloaderContents (downloader [Msg.reference ⟨7⟩, Msg.reference ⟨8⟩, Msg.reference ⟨7⟩]
      Table.empty).1 ⟨⟨7⟩, ⟨7⟩⟩).2.length = 2 :=
  coalescing Table.empty [Msg.reference ⟨7⟩, Msg.reference ⟨8⟩, Msg.reference ⟨7⟩] ⟨7⟩ ⟨7⟩ 2
    (by decide) (by decide) rfl (by decide)

/-- C5. FIFO fan-out: when references `rs` are received in that order for
`loc`, starting from a table without `loc` and possibly interleaved with
references and completions for other locations, the actions the downloader
performs when the completion for `loc` arrives are the calls of
`processContent` for `rs` in exactly that order. -/
theorem fifo_fan_out (requested : Table) (msgs : List Msg) (loc : Location)
    (content : Content) (rs : List Reference)
    (habsent : requested loc = none) (hnone : completionCount loc msgs = 0)
    (hrs : submittedFor loc msgs = rs) :
    (downloader (msgs ++ [Msg.contents ⟨loc, content⟩]) requested).2 =
      (downloader msgs requested).2 ++ rs.map (fun ref => processContent ref content) := by
  have hread := read_downloader msgs requested loc hnone
  have h0 : requested.read loc = [] := by simp [Table.read, habsent]
  rw [h0, List.nil_append, hrs] at hread
  rw [downloader_append]
  simp [downloader, downloaderIter, downloaderContents, hread]

/-- The statement of C5 for three references to location 1 interleaved with a
reference and a completion for location 2. -/
theorem fifo_fan_out_witness :
    (downloader ([Msg.reference ⟨1⟩, Msg.reference ⟨2⟩, Msg.contents ⟨⟨2⟩, ⟨2⟩⟩,
        Msg.reference ⟨1⟩, Msg.reference ⟨1⟩] ++ [Msg.contents ⟨⟨1⟩, ⟨9⟩⟩]) Table.empty).2 =
      (downloader [Msg.reference ⟨1⟩, Msg.reference ⟨2⟩, Msg.contents ⟨⟨2⟩, ⟨2⟩⟩,
        Msg.reference ⟨1⟩, Msg.reference ⟨1⟩] Table.empty).2 ++
        [(⟨1⟩ : Reference), ⟨1⟩, ⟨1⟩].map (fun ref => processContent ref ⟨9⟩) :=
  fifo_fan_out Table.empty [Msg.reference ⟨1⟩, Msg.reference ⟨2⟩, Msg.contents ⟨⟨2⟩, ⟨2⟩⟩,
    Msg.reference ⟨1⟩, Msg.reference ⟨1⟩] ⟨1⟩ ⟨9⟩ [⟨1⟩, ⟨1⟩, ⟨1⟩] rfl (by decide) (by decide)

/-- C9, as stated, fails: for the empty table and a completion for location 1
the contents branch returns normally instead of aborting. -/
theorem absent_completion_returns :
    ¬ (∀ (requested : Table) (lc : LocContent), requested lc.loc = none →
        ∃ e, downloaderContentsOutcome requested lc = Except.error e) := by
  intro h
  obtain ⟨e, he⟩ := h Table.empty ⟨⟨1⟩, ⟨1⟩⟩ rfl
  simp [downloaderContentsOutcome] at he

/-- C9, amended. A completion whose location is not a key of the table: the
contents branch returns normally, leaves the table as it is and makes no call
of `processContent`. -/
theorem completion_absent (requested : Table) (lc : LocContent)
    (h : requested lc.loc = none) :
    downloaderContentsOutcome requested lc = Except.ok (requested, []) := by
  have hd : requested.delete lc.loc = requested := by
    unfold Table.delete
    rw [← h]
    exact Function.update_eq_self _ _
  simp [downloaderContentsOutcome, downloaderContents, Table.read, h, hd]

/-- The amended statement of C9 at the empty table. -/
theorem completion_absent_witness :
    downloaderContentsOutcome Table.empty ⟨⟨1⟩, ⟨1⟩⟩ = Except.ok (Table.empty, []) :=
  completion_absent Table.empty ⟨⟨1⟩, ⟨1⟩⟩ rfl

/-- C10, as stated, fails: reference 1, then the completion for location 1,
then reference 1 again, from the empty table, sends location 1 twice. -/
theorem refetch_after_completion :
    ¬ (∀ (msgs : List Msg) (loc : Location),
        sendCount loc (downloader msgs Table.empty).2 ≤ 1) := by
  intro h
  have := h [Msg.reference ⟨1⟩, Msg.contents ⟨⟨1⟩, ⟨1⟩⟩, Msg.reference ⟨1⟩] ⟨1⟩
  revert this
  decide

/-- While no reference for `loc` is received, a location that is absent stays
absent and is not sent. -/
theorem absent_downloader (mid : List Msg) (requested : Table) (loc : Location)
    (habsent : requested loc = none) (hmid : submittedFor loc mid = []) :
    (downloader mid requested).1 loc = none ∧
    sendCount loc (downloader mid requested).2 = 0 := by
  induction mid generalizing requested with
  | nil => simp [downloader, habsent, sendCount]
  | cons m ms ih =>
    cases m with
    | reference r =>
      have e : r.resolveLocation ≠ loc := by
        intro e; simp [submittedFor, e] at hmid
      have hms : submittedFor loc ms = [] := by simpa [submittedFor, e] using hmid
      have h1 : (downloaderRef requested r).1 loc = none := by
        rw [downloaderRef_other requested r loc e]; exact habsent
      obtain ⟨ha, hb⟩ := ih (downloaderRef requested r).1 h1 hms
      simp only [downloader, downloaderIter, sendCount_append, sendCount_downloaderRef]
      exact ⟨ha, by simp [e, hb]⟩
    | contents lc =>
      have hms : submittedFor loc ms = [] := by simpa [submittedFor] using hmid
      have h1 : (downloaderContents requested lc).1 loc = none := by
        by_cases e : lc.loc = loc
        · subst e; simp [downloaderContents, Table.delete]
        · rw [downloaderContents_other requested lc loc e]; exact habsent
      obtain ⟨ha, hb⟩ := ih (downloaderContents requested lc).1 h1 hms
      simp only [downloader, downloaderIter, sendCount_append, sendCount_downloaderContents]
      exact ⟨ha, by simp [hb]⟩

/-- C10, amended. Over a whole run from the empty table a location is sent
for fetching at most once more than completions for it were received; while
no completion for it is received it is sent exactly once if a reference for it
was submitted and not at all otherwise; and a reference for the location
submitted after a completion for it, with no other reference for it in
between, sends the location again: exactly one more send. -/
theorem dispatch_once_per_completion (msgs mid : List Msg) (loc : Location)
    (content : Content) (ref : Reference)
    (href : ref.resolveLocation = loc) (hmid : submittedFor loc mid = []) :
    sendCount loc (downloader msgs Table.empty).2 ≤ completionCount loc msgs + 1 ∧
    (completionCount loc msgs = 0 →
      sendCount loc (downloader msgs Table.empty).2 =
        if submittedFor loc msgs = [] then 0 else 1) ∧
    (downloaderRef (downloader (msgs ++ Msg.contents ⟨loc, content⟩ :: mid) Table.empty).1
      ref).2 = [Effect.send loc] ∧
    sendCount loc
        (downloader (msgs ++ (Msg.contents ⟨loc, content⟩ :: mid ++ [Msg.reference ref]))
          Table.empty).2 =
      sendCount loc (downloader msgs Table.empty).2 + 1 := by
  subst href
  have hdel : (downloaderContents (downloader msgs Table.empty).1
      ⟨ref.resolveLocation, content⟩).1 ref.resolveLocation = none := by
    simp [downloaderContents, Table.delete]
  obtain ⟨ha, hb⟩ := absent_downloader mid _ ref.resolveLocation hdel hmid
  have htable : (downloader (msgs ++ Msg.contents ⟨ref.resolveLocation, content⟩ :: mid)
      Table.empty).1 ref.resolveLocation = none := by
    rw [downloader_append]
    simpa [downloader, downloaderIter] using ha
  refine ⟨?_, ?_, ?_, ?_⟩
  · have := sendCount_le msgs Table.empty ref.resolveLocation
    simpa [Table.empty] using this
  · intro hnone
    rw [sendCount_downloader msgs Table.empty ref.resolveLocation hnone]
    by_cases e : submittedFor ref.resolveLocation msgs = [] <;> simp [e, Table.empty]
  · rw [downloaderRef_none _ _ htable]
  · rw [downloader_append, downloader_append]
    simp only [sendCount_append, downloader, downloaderIter, sendCount_downloaderContents,
      List.append_nil, Nat.zero_add]
    rw [hb, sendCount_downloaderRef]
    have htable2 : (downloader mid (downloaderContents (downloader msgs Table.empty).1
        ⟨ref.resolveLocation, content⟩).1).1 ref.resolveLocation = none := ha
    simp [htable2]

/-- The amended statement of C10 for reference 1, completion of location 1,
reference 2 and reference 1 again. -/
theorem dispatch_once_per_completion_witness :
    (downloaderRef (downloader ([Msg.reference ⟨1⟩] ++
      Msg.contents ⟨⟨1⟩, ⟨1⟩⟩ :: [Msg.reference ⟨2⟩]) Table.empty).1 ⟨1⟩).2
      = [Effect.send ⟨1⟩] ∧
    sendCount ⟨1⟩
        (downloader ([Msg.reference ⟨1⟩] ++
          (Msg.contents ⟨⟨1⟩, ⟨1⟩⟩ :: [Msg.reference ⟨2⟩] ++ [Msg.reference ⟨1⟩]))
          Table.empty).2 =
      sendCount ⟨1⟩ (downloader [Msg.reference ⟨1⟩] Table.empty).2 + 1 :=
  (dispatch_once_per_completion [Msg.reference ⟨1⟩] [Msg.reference ⟨2⟩] ⟨1⟩ ⟨1⟩ ⟨1⟩
    rfl (by decide)).2.2

/-! ## Lemmas on the system -/

theorem countP_set (p : WorkerState → Bool) (ws : List WorkerState) (i : Nat)
    (w w' : WorkerState) (h : ws[i]? = some w) :
    (ws.set i w').countP p + (if p w then 1 else 0) =
      ws.countP p + (if p w' then 1 else 0) := by
  induction ws generalizing i with
  | nil => simp at h
  | cons x xs ih =>
    cases i with
    | zero =>
      simp only [List.getElem?_cons_zero, Option.some.injEq] at h
      subst h
      simp only [List.set_cons_zero, List.countP_cons]
      omega
    | succ j =>
      simp only [List.getElem?_cons_succ] at h
      have := ih j h
      simp only [List.set_cons_succ, List.countP_cons]
      omega

theorem sendCount_process (loc : Location) (refs : List Reference) (content : Content) :
    sendCount loc (refs.map (fun ref => processContent ref content)) = 0 := by
  simp [sendCount, processContent, List.count_eq_zero]

theorem invariant_processReferences : Invariant processReferences := by
  intro loc
  simp [processReferences, inFlight, DlState.holds, Table.empty, sendCount, completedCount,
    nWorkers, WorkerState.holds]

theorem invariant_step (s s' : System) (a : Action) (hs : Invariant s)
    (h : step s a = some s') : Invariant s' := by
  intro loc
  obtain ⟨h1, h2⟩ := hs loc
  cases a with
  | reference ref =>
    cases hdl : s.dl with
    | sending l => simp [step, hdl] at h
    | selecting =>
      simp only [step, hdl, Option.some.injEq] at h
      subst h
      simp only [inFlight, hdl, DlState.holds, Bool.false_eq_true, if_false, Nat.zero_add]
        at h1 h2
      simp only [inFlight, sendCount_append, sendCount_downloaderRef]
      by_cases e : ref.resolveLocation = loc
      · subst e
        have hne := downloaderRef_self_ne_none s.requested ref
        cases hr : s.requested ref.resolveLocation with
        | none =>
          simp only [hr, if_true] at h1
          simp only [hne, DlState.holds, hr, and_self, if_true, if_false, decide_True]
          omega
        | some refs =>
          simp only [hr, if_false] at h1
          simp only [hne, DlState.holds, hr, and_false, if_false]
          simp at h1 ⊢
          omega
      · simp only [downloaderRef_other _ _ _ e]
        cases hr : s.requested ref.resolveLocation with
        | none =>
          simp only [DlState.holds, e, decide_False, false_and, if_false]
          simp at h1 h2 ⊢
          omega
        | some refs =>
          simp only [DlState.holds, e, false_and, if_false]
          simp at h1 h2 ⊢
          omega
  | dispatch i =>
    cases hdl : s.dl with
    | selecting => simp [step, hdl] at h
    | sending l =>
      cases hw : s.workers[i]? with
      | none => simp [step, hdl, hw] at h
      | some w =>
        cases w with
        | receiving =>
          simp only [step, hdl, hw, Option.some.injEq] at h
          subst h
          have hc := countP_set (WorkerState.holds loc) s.workers i WorkerState.receiving
            (WorkerState.downloading l) hw
          simp only [inFlight, hdl, DlState.holds] at h1 h2
          simp only [inFlight, DlState.holds, WorkerState.holds] at hc ⊢
          by_cases e : l = loc <;> simp [e] at h1 h2 hc ⊢ <;> omega
        | downloading l2 => simp [step, hdl, hw] at h
        | sending lc => simp [step, hdl, hw] at h
  | download i =>
    cases hw : s.workers[i]? with
    | none => simp [step, hw] at h
    | some w =>
      cases w with
      | receiving => simp [step, hw] at h
      | sending lc => simp [step, hw] at h
      | downloading l =>
        simp only [step, hw, Option.some.injEq] at h
        subst h
        have hc := countP_set (WorkerState.holds loc) s.workers i (WorkerState.downloading l)
          (WorkerState.sending (workerIter l)) hw
        simp only [inFlight] at h1 h2
        simp only [inFlight, WorkerState.holds, workerIter] at hc ⊢
        by_cases e : l = loc <;> simp [e] at h1 h2 hc ⊢ <;> omega
  | complete i =>
    cases hdl : s.dl with
    | sending l => simp [step, hdl] at h
    | selecting =>
      cases hw : s.workers[i]? with
      | none => simp [step, hdl, hw] at h
      | some w =>
        cases w with
        | receiving => simp [step, hdl, hw] at h
        | downloading l => simp [step, hdl, hw] at h
        | sending lc =>
          simp only [step, hdl, hw, Option.some.injEq] at h
          subst h
          have hc := countP_set (WorkerState.holds loc) s.workers i (WorkerState.sending lc)
            WorkerState.receiving hw
          simp only [inFlight, hdl, DlState.holds, Bool.false_eq_true, if_false, Nat.zero_add]
            at h1 h2
          simp only [inFlight, hdl, DlState.holds, WorkerState.holds, sendCount_append,
            completedCount, List.countP_append] at hc ⊢
          simp only [completedCount] at h2
          simp only [downloaderContents, sendCount_process]
          by_cases e : lc.loc = loc
          · subst e
            simp only [decide_True, if_true, Bool.false_eq_true, if_false, Nat.add_zero] at hc
            simp only [Table.delete, Function.update_same, if_true, List.countP_cons,
              List.countP_nil, decide_True, Nat.zero_add]
            have hle : List.countP (WorkerState.holds lc.loc) s.workers ≤ 1 := by
              rw [h1]; split <;> omega
            simp only [Bool.false_eq_true, if_false, Nat.zero_add]
            omega
          · have e2 : ¬ loc = lc.loc := fun x => e x.symm
            simp [Table.delete, Function.update, e, e2] at h1 h2 hc ⊢
            omega

theorem invariant_run (acts : List Action) (s s' : System) (hs : Invariant s)
    (h : run acts s = some s') : Invariant s' := by
  induction acts generalizing s with
  | nil =>
    simp only [run, Option.some.injEq] at h
    subst h
    exact hs
  | cons a as ih =>
    simp only [run] at h
    cases hstep : step s a with
    | none => simp [hstep] at h
    | some t =>
      rw [hstep] at h
      exact ih t (invariant_step s t a hs hstep) h

/-- A state in which the downloader is blocked in its send on `locations` and
every worker is blocked in its send on `contents` has no enabled action: the
workers cannot receive the location, the downloader is not at its `select` to
receive a completion or the reference `main` offers. -/
theorem blocked_is_stuck (m : MainSystem) (loc : Location)
    (hdl : m.sys.dl = DlState.sending loc)
    (hw : ∀ w ∈ m.sys.workers, ∃ lc, w = WorkerState.sending lc) (a : Action) :
    mainStep m a = none := by
  have hget : ∀ i : Nat, m.sys.workers[i]? = none ∨
      ∃ lc, m.sys.workers[i]? = some (WorkerState.sending lc) := by
    intro i
    cases hi : m.sys.workers[i]? with
    | none => exact Or.inl rfl
    | some w =>
      obtain ⟨lc, hlc⟩ := hw w (List.getElem?_mem hi)
      exact Or.inr ⟨lc, by rw [hlc]⟩
  cases a with
  | reference ref => simp [mainStep, step, hdl]
  | dispatch i =>
    rcases hget i with h | ⟨lc, h⟩ <;> simp [mainStep, step, hdl, h]
  | download i =>
    rcases hget i with h | ⟨lc, h⟩ <;> simp [mainStep, step, h]
  | complete i =>
    rcases hget i with h | ⟨lc, h⟩ <;> simp [mainStep, step, hdl, h]

/-- Once the downloader is in its send on `locations` while no worker is at
its receive, this stays so along every run: the only enabled actions are
returns from `downloadContent`, so the pending send is never taken. -/
theorem busy_send_step (m m' : MainSystem) (loc : Location) (a : Action)
    (hdl : m.sys.dl = DlState.sending loc)
    (hw : ∀ w ∈ m.sys.workers, w ≠ WorkerState.receiving)
    (h : mainStep m a = some m') :
    m'.sys.dl = DlState.sending loc ∧ ∀ w ∈ m'.sys.workers, w ≠ WorkerState.receiving := by
  cases a with
  | reference ref => simp [mainStep, step, hdl] at h
  | complete i => simp [mainStep, step, hdl] at h
  | dispatch i =>
    cases hi : m.sys.workers[i]? with
    | none => simp [mainStep, step, hdl, hi] at h
    | some w =>
      have hne := hw w (List.getElem?_mem hi)
      cases w with
      | receiving => exact absurd rfl hne
      | downloading l => simp [mainStep, step, hdl, hi] at h
      | sending lc => simp [mainStep, step, hdl, hi] at h
  | download i =>
    cases hi : m.sys.workers[i]? with
    | none => simp [mainStep, step, hi] at h
    | some w =>
      cases w with
      | receiving => simp [mainStep, step, hi] at h
      | sending lc => simp [mainStep, step, hi] at h
      | downloading l =>
        simp only [mainStep, step, hi, Option.map_some', Option.some.injEq] at h
        subst h
        refine ⟨hdl, ?_⟩
        intro w hmem
        rcases List.mem_or_eq_of_mem_set hmem with hold | hnew
        · exact hw w hold
        · rw [hnew]; exact WorkerState.noConfusion

/-- The run form of `busy_send_step`. -/
theorem busy_send_run (acts : List Action) (m m' : MainSystem) (loc : Location)
    (hdl : m.sys.dl = DlState.sending loc)
    (hw : ∀ w ∈ m.sys.workers, w ≠ WorkerState.receiving)
    (h : mainRun acts m = some m') :
    m'.sys.dl = DlState.sending loc ∧ ∀ w ∈ m'.sys.workers, w ≠ WorkerState.receiving := by
  induction acts generalizing m with
  | nil =>
    simp only [mainRun, Option.some.injEq] at h
    subst h
    exact ⟨hdl, hw⟩
  | cons a as ih =>
    simp only [mainRun] at h
    cases hstep : mainStep m a with
    | none => simp [hstep] at h
    | some t =>
      rw [hstep] at h
      obtain ⟨h1, h2⟩ := busy_send_step m t loc a hdl hw hstep
      exact ih t h1 h2 h

/-! ## Theorems on the system -/

/-- C6. The system driven by `main` reaches a deadlock: after `main` has
submitted references 1 to 5 and the four workers have finished downloading
locations 1 to 4, the downloader is blocked in the send of location 5 on
`locations`, every one of the `nWorkers` workers is blocked in its send on
`contents`, and no action of the system is enabled. -/
theorem deadlock_reachable :
    mainRun deadlockSchedule main = some deadlockState ∧
    deadlockState.sys.dl = DlState.sending ⟨5⟩ ∧
    deadlockState.sys.workers.length = nWorkers ∧
    (∀ w ∈ deadlockState.sys.workers, ∃ lc, w = WorkerState.sending lc) ∧
    ∀ a, mainStep deadlockState a = none := by
  have hw : ∀ w ∈ deadlockState.sys.workers, ∃ lc, w = WorkerState.sending lc := by
    intro w hmem
    simp only [deadlockState, List.mem_cons, List.mem_singleton, List.not_mem_nil, or_false]
      at hmem
    rcases hmem with h | h | h | h <;> exact ⟨_, h⟩
  exact ⟨rfl, rfl, rfl, hw, blocked_is_stuck deadlockState ⟨5⟩ rfl hw⟩

/-- C7. No duplicate dispatch: in every reachable state of the system, for
every location at most one fetch is in flight (the downloader's pending send
of it, workers downloading it and workers with a pending completion for it,
counted together); and whenever the downloader, on receiving a reference,
starts the send of a location, that location was not a key of the table. -/
theorem no_duplicate_dispatch (s : System) (h : Reachable s) (loc : Location) :
    inFlight s loc ≤ 1 ∧
    ∀ (ref : Reference) (s' : System), step s (Action.reference ref) = some s' →
      s'.dl = DlState.sending loc → s.requested loc = none := by
  constructor
  · obtain ⟨acts, hacts⟩ := h
    have := (invariant_run acts _ s invariant_processReferences hacts loc).1
    rw [this]
    split <;> omega
  · intro ref s' hstep hsend
    cases hdl : s.dl with
    | sending l => simp [step, hdl] at hstep
    | selecting =>
      simp only [step, hdl, Option.some.injEq] at hstep
      subst hstep
      cases hr : s.requested ref.resolveLocation with
      | none =>
        simp only [hr, DlState.sending.injEq] at hsend
        rw [← hsend]
        exact hr
      | some refs => simp [hr] at hsend

/-- The statement of C7 at the state reached by reference 1, its dispatch and
reference 2. -/
theorem no_duplicate_dispatch_witness :
    Reachable sendingState ∧ inFlight sendingState ⟨2⟩ ≤ 1 :=
  ⟨⟨[Action.reference ⟨1⟩, Action.dispatch 0, Action.reference ⟨2⟩], rfl⟩,
    (no_duplicate_dispatch sendingState
      ⟨[Action.reference ⟨1⟩, Action.dispatch 0, Action.reference ⟨2⟩], rfl⟩ ⟨2⟩).1⟩

/-- C8. Waiters-table invariant: in every reachable state of the system a
location is a key of `requested` if and only if more sends of it have been
decided by the downloader than completions for it have been received, that
is, it has been dispatched and that dispatch is not yet completed; and at most
one dispatch of a location is outstanding. -/
theorem waiters_table_invariant (s : System) (h : Reachable s) (loc : Location) :
    (s.requested loc ≠ none ↔ completedCount loc s.completed < sendCount loc s.trace) ∧
    sendCount loc s.trace ≤ completedCount loc s.completed + 1 := by
  obtain ⟨acts, hacts⟩ := h
  obtain ⟨h1, h2⟩ := invariant_run acts _ s invariant_processReferences hacts loc
  rw [h1] at h2
  by_cases e : s.requested loc = none
  · simp only [e, if_true] at h2
    simp only [e, ne_eq, not_true_eq_false, false_iff]
    omega
  · simp only [e, if_false] at h2
    simp only [ne_eq, e, not_false_eq_true, true_iff]
    omega

/-- The statement of C8 at a state reached after the completion of location 1. -/
theorem waiters_table_invariant_witness :
    Reachable completedState ∧
    (completedState.requested ⟨1⟩ ≠ none ↔
      completedCount ⟨1⟩ completedState.completed < sendCount ⟨1⟩ completedState.trace) ∧
    sendCount ⟨1⟩ completedState.trace ≤ completedCount ⟨1⟩ completedState.completed + 1 :=
  ⟨⟨[Action.reference ⟨1⟩, Action.dispatch 0, Action.reference ⟨1⟩, Action.reference ⟨2⟩,
      Action.dispatch 1, Action.download 0, Action.complete 0], rfl⟩,
    waiters_table_invariant completedState
      ⟨[Action.reference ⟨1⟩, Action.dispatch 0, Action.reference ⟨1⟩, Action.reference ⟨2⟩,
        Action.dispatch 1, Action.download 0, Action.complete 0], rfl⟩ ⟨1⟩⟩

/-! ## Lemmas on delivery -/

theorem read_downloaderRef (requested : Table) (ref : Reference) (loc : Location) :
    (downloaderRef requested ref).1.read loc =
      if ref.resolveLocation = loc then requested.read loc ++ [ref] else requested.read loc := by
  by_cases e : ref.resolveLocation = loc
  · subst e
    cases hr : requested ref.resolveLocation with
    | none => simp [downloaderRef_none _ _ hr, Table.read, Table.set, hr]
    | some refs => simp [downloaderRef_some _ _ _ hr, Table.read, Table.set, hr]
  · simp [Table.read, downloaderRef_other requested ref loc e, e]

theorem read_downloaderContents (requested : Table) (lc : LocContent) (loc : Location) :
    (downloaderContents requested lc).1.read loc =
      if lc.loc = loc then [] else requested.read loc := by
  by_cases e : lc.loc = loc
  · subst e
    simp [downloaderContents, Table.read, Table.delete]
  · simp [Table.read, downloaderContents_other requested lc loc e, e]

theorem processed_append (xs ys : List Effect) :
    processed (xs ++ ys) = processed xs ++ processed ys := by
  induction xs with
  | nil => rfl
  | cons x xs ih => cases x <;> simp [processed, ih]

theorem processed_downloaderRef (requested : Table) (ref : Reference) :
    processed (downloaderRef requested ref).2 = [] := by
  cases hr : requested ref.resolveLocation with
  | none => simp [downloaderRef_none _ _ hr, processed]
  | some refs => simp [downloaderRef_some _ _ _ hr, processed]

theorem processed_map (refs : List Reference) (content : Content) :
    processed (refs.map (fun ref => processContent ref content)) = refs := by
  induction refs with
  | nil => rfl
  | cons r rs ih => simpa [processed, processContent] using ih

theorem processed_downloaderContents (requested : Table) (lc : LocContent) :
    processed (downloaderContents requested lc).2 = requested.read lc.loc := by
  simp [downloaderContents, processed_map]

theorem wellKeyed_empty : WellKeyed Table.empty := by
  intro loc ref h
  simp [Table.read, Table.empty] at h

theorem wellKeyed_downloaderRef (requested : Table) (ref : Reference)
    (h : WellKeyed requested) : WellKeyed (downloaderRef requested ref).1 := by
  intro loc r hr
  rw [read_downloaderRef] at hr
  by_cases e : ref.resolveLocation = loc
  · simp only [e, if_true, List.mem_append, List.mem_singleton] at hr
    rcases hr with hr | hr
    · exact h loc r hr
    · rw [hr]; exact e
  · simp only [e, if_false] at hr
    exact h loc r hr

theorem wellKeyed_downloaderContents (requested : Table) (lc : LocContent)
    (h : WellKeyed requested) : WellKeyed (downloaderContents requested lc).1 := by
  intro loc r hr
  rw [read_downloaderContents] at hr
  by_cases e : lc.loc = loc
  · simp [e] at hr
  · simp only [e, if_false] at hr
    exact h loc r hr

theorem wellKeyed_downloader (msgs : List Msg) (requested : Table)
    (h : WellKeyed requested) : WellKeyed (downloader msgs requested).1 := by
  induction msgs generalizing requested with
  | nil => exact h
  | cons m ms ih =>
    cases m with
    | reference ref => exact ih _ (wellKeyed_downloaderRef requested ref h)
    | contents lc => exact ih _ (wellKeyed_downloaderContents requested lc h)

/-- Each occurrence of a reference is accounted for once: the occurrences
waiting at its location plus the calls made for it are those waiting at the
start plus those received. -/
theorem count_downloader (msgs : List Msg) (requested : Table) (hk : WellKeyed requested)
    (ref : Reference) :
    ((downloader msgs requested).1.read ref.resolveLocation).count ref +
        (processed (downloader msgs requested).2).count ref =
      (requested.read ref.resolveLocation).count ref + (submitted msgs).count ref := by
  induction msgs generalizing requested with
  | nil => simp [downloader, submitted, processed]
  | cons m ms ih =>
    cases m with
    | reference r =>
      have ih2 := ih (downloaderRef requested r).1 (wellKeyed_downloaderRef requested r hk)
      rw [read_downloaderRef] at ih2
      simp only [downloader, downloaderIter, submitted, processed_append,
        processed_downloaderRef, List.nil_append]
      rw [ih2]
      by_cases e : r.resolveLocation = ref.resolveLocation
      · simp only [e, if_true, List.count_append, List.count_cons, List.count_nil]
        omega
      · have hne : r ≠ ref := fun x => e (by rw [x])
        simp only [e, if_false, List.count_cons_of_ne hne.symm]
    | contents lc =>
      have ih2 := ih (downloaderContents requested lc).1
        (wellKeyed_downloaderContents requested lc hk)
      rw [read_downloaderContents] at ih2
      simp only [downloader, downloaderIter, submitted, processed_append,
        processed_downloaderContents, List.count_append]
      by_cases e : lc.loc = ref.resolveLocation
      · simp only [e, if_true, List.count_nil, Nat.zero_add] at ih2
        rw [e]
        omega
      · simp only [e, if_false] at ih2
        have hz : (requested.read lc.loc).count ref = 0 :=
          List.count_eq_zero_of_not_mem (fun hmem => e (hk lc.loc ref hmem).symm)
        omega

theorem nonEmptyLists_downloader (msgs : List Msg) (requested : Table)
    (h : NonEmptyLists requested) : NonEmptyLists (downloader msgs requested).1 := by
  induction msgs generalizing requested with
  | nil => exact h
  | cons m ms ih =>
    apply ih
    intro loc
    cases m with
    | reference ref =>
      by_cases e : ref.resolveLocation = loc
      · subst e
        cases hr : requested ref.resolveLocation with
        | none => simp [downloaderIter, downloaderRef_none _ _ hr, Table.set]
        | some refs => simp [downloaderIter, downloaderRef_some _ _ _ hr, Table.set]
      · simp only [downloaderIter, downloaderRef_other requested ref loc e]
        exact h loc
    | contents lc =>
      by_cases e : lc.loc = loc
      · subst e
        simp [downloaderIter, downloaderContents, Table.delete]
      · simp only [downloaderIter, downloaderContents_other requested lc loc e]
        exact h loc

/-! ## Theorems on delivery -/

/-- C11. Exactly-once delivery: after any finite sequence of submits and
completions from the empty table (so also after each of its prefixes, and
whether or not a completion finds its location in the table), every occurrence
of a submitted reference is either waiting in the list at its own location or
has been passed to `processContent`, and is counted once: the occurrences
waiting there plus the calls made for the reference equal the number of times
it was submitted; a reference waits in no list but the one of its location;
and when the table is empty the processed references are the submitted ones
as multisets. -/
theorem exactly_once_delivery (msgs : List Msg) :
    (∀ ref : Reference,
      ((downloader msgs Table.empty).1.read ref.resolveLocation).count ref +
          (processed (downloader msgs Table.empty).2).count ref =
        (submitted msgs).count ref) ∧
    (∀ (loc : Location) (ref : Reference),
      ref ∈ (downloader msgs Table.empty).1.read loc → ref.resolveLocation = loc) ∧
    ((∀ loc : Location, (downloader msgs Table.empty).1 loc = none) →
      (processed (downloader msgs Table.empty).2).Perm (submitted msgs)) := by
  have hcount := count_downloader msgs Table.empty wellKeyed_empty
  have hread0 : ∀ loc : Location, Table.empty.read loc = [] := fun _ => rfl
  refine ⟨?_, wellKeyed_downloader msgs Table.empty wellKeyed_empty, ?_⟩
  · intro ref
    have := hcount ref
    rw [hread0] at this
    simpa using this
  · intro hempty
    rw [List.perm_iff_count]
    intro ref
    have := hcount ref
    rw [hread0] at this
    have hr : (downloader msgs Table.empty).1.read ref.resolveLocation = [] := by
      simp [Table.read, hempty]
    rw [hr] at this
    simpa using this

/-- The statement of C11 for references 1, 2, 1 followed by the completions
of locations 1 and 2, after which the table is empty. -/
theorem exactly_once_delivery_witness :
    (processed (downloader [Msg.reference ⟨1⟩, Msg.reference ⟨2⟩, Msg.reference ⟨1⟩,
      Msg.contents ⟨⟨1⟩, ⟨1⟩⟩, Msg.contents ⟨⟨2⟩, ⟨2⟩⟩] Table.empty).2).Perm
      (submitted [Msg.reference ⟨1⟩, Msg.reference ⟨2⟩, Msg.reference ⟨1⟩,
        Msg.contents ⟨⟨1⟩, ⟨1⟩⟩, Msg.contents ⟨⟨2⟩, ⟨2⟩⟩]) :=
  (exactly_once_delivery [Msg.reference ⟨1⟩, Msg.reference ⟨2⟩, Msg.reference ⟨1⟩,
    Msg.contents ⟨⟨1⟩, ⟨1⟩⟩, Msg.contents ⟨⟨2⟩, ⟨2⟩⟩]).2.2 (by
      intro loc
      by_cases h2 : loc = ⟨2⟩
      · subst h2; rfl
      · by_cases h1 : loc = ⟨1⟩
        · subst h1; rfl
        · simp [downloader, downloaderIter, downloaderRef, downloaderContents, Table.set,
            Table.delete, Table.empty, Table.read, Reference.resolveLocation,
            Function.update, h1, h2])

/-- C15. Non-empty waiters lists: after any sequence of submit and completion
steps from the empty table, a key present in `requested` maps to a non-empty
list, and a completion for it makes at least one call of `processContent`. -/
theorem waiters_nonempty (msgs : List Msg) (loc : Location) (refs : List Reference)
    (h : (downloader msgs Table.empty).1 loc = some refs) :
    refs ≠ [] ∧
    ∀ content : Content,
      (downloaderContents (downloader msgs Table.empty).1 ⟨loc, content⟩).2 ≠ [] := by
  have hne : refs ≠ [] := by
    intro e
    have hn : NonEmptyLists Table.empty := by
      intro l; simp [Table.empty]
    exact nonEmptyLists_downloader msgs Table.empty hn loc (by rw [h, e])
  refine ⟨hne, ?_⟩
  intro content
  simp [downloaderContents, Table.read, h, hne]

/-- The statement of C15 for references 7 and 7 and location 7. -/
theorem waiters_nonempty_witness :
    (downloader [Msg.reference ⟨7⟩, Msg.reference ⟨7⟩] Table.empty).1 ⟨7⟩
      = some [⟨7⟩, ⟨7⟩] ∧
    ([⟨7⟩, ⟨7⟩] : List Reference) ≠ [] ∧
    ∀ content : Content,
      (downloaderContents (downloader [Msg.reference ⟨7⟩, Msg.reference ⟨7⟩] Table.empty).1
        ⟨⟨7⟩, content⟩).2 ≠ [] :=
  ⟨rfl, waiters_nonempty [Msg.reference ⟨7⟩, Msg.reference ⟨7⟩] ⟨7⟩ [⟨7⟩, ⟨7⟩] rfl⟩

/-- Frame for an arbitrary table: a submit of a reference resolving to `loc`
and a completion for `loc` leave the entry of every other location `loc'` as
it was; the calls the completion makes are exactly one per element of the list
at `loc`; and in a table whose lists hold only references that resolve to
their key, no call is for a reference of the list at `loc'`. -/
theorem frame_any_table (requested : Table) (ref : Reference) (lc : LocContent)
    (loc loc' : Location) (hne : loc' ≠ loc)
    (href : ref.resolveLocation = loc) (hlc : lc.loc = loc) :
    (downloaderRef requested ref).1 loc' = requested loc' ∧
    (downloaderContents requested lc).1 loc' = requested loc' ∧
    (downloaderContents requested lc).2 =
      (requested.read loc).map (fun r => processContent r lc.content) ∧
    (WellKeyed requested → ∀ r ∈ requested.read loc', ∀ content : Content,
      processContent r content ∉ (downloaderContents requested lc).2) := by
  subst href
  refine ⟨downloaderRef_other requested ref loc' (Ne.symm hne),
    downloaderContents_other requested lc loc' (by rw [hlc]; exact Ne.symm hne), ?_, ?_⟩
  · simp [downloaderContents, hlc]
  · intro hk r hr content hmem
    simp only [downloaderContents, hlc, List.mem_map, processContent, Effect.process.injEq]
      at hmem
    obtain ⟨r2, hr2, h1, _⟩ := hmem
    subst h1
    exact hne ((hk loc' r2 hr).symm.trans (hk _ r2 hr2))

/-- C16. Frame across locations: for every table the downloader holds, that
is the table after any sequence of received messages from the empty one, a
submit of a reference resolving to `loc` and a completion for `loc` each leave
the entry of every other location `loc'` as it was, and the completion makes
no call of `processContent` for a reference waiting on another location. The
two frame parts hold for every table `other` whatsoever, where the calls of
the completion are exactly one per element of the list at `loc`. -/
theorem frame_across_locations (msgs : List Msg) (other : Table) (ref : Reference)
    (lc : LocContent) (loc loc' : Location) (hne : loc' ≠ loc)
    (href : ref.resolveLocation = loc) (hlc : lc.loc = loc) :
    ((downloaderRef (downloader msgs Table.empty).1 ref).1 loc' =
        (downloader msgs Table.empty).1 loc' ∧
      (downloaderContents (downloader msgs Table.empty).1 lc).1 loc' =
        (downloader msgs Table.empty).1 loc' ∧
      ∀ r ∈ (downloader msgs Table.empty).1.read loc', ∀ content : Content,
        processContent r content ∉ (downloaderContents (downloader msgs Table.empty).1 lc).2) ∧
    ((downloaderRef other ref).1 loc' = other loc' ∧
      (downloaderContents other lc).1 loc' = other loc' ∧
      (downloaderContents other lc).2 =
        (other.read loc).map (fun r => processContent r lc.content)) := by
  have hbuilt := frame_any_table (downloader msgs Table.empty).1 ref lc loc loc' hne href hlc
  have hother := frame_any_table other ref lc loc loc' hne href hlc
  exact ⟨⟨hbuilt.1, hbuilt.2.1,
      hbuilt.2.2.2 (wellKeyed_downloader msgs Table.empty wellKeyed_empty)⟩,
    hother.1, hother.2.1, hother.2.2.1⟩

/-- The statement of C16 at the table built by references 1, 2 and 1, for a
reference and a completion for location 1 and the other location 2. -/
theorem frame_across_locations_witness :
    (downloaderRef (downloader [Msg.reference ⟨1⟩, Msg.reference ⟨2⟩, Msg.reference ⟨1⟩]
      Table.empty).1 ⟨1⟩).1 ⟨2⟩ = some [⟨2⟩] ∧
    (downloaderContents (downloader [Msg.reference ⟨1⟩, Msg.reference ⟨2⟩, Msg.reference ⟨1⟩]
      Table.empty).1 ⟨⟨1⟩, ⟨1⟩⟩).1 ⟨2⟩ = some [⟨2⟩] ∧
    processContent ⟨2⟩ ⟨1⟩ ∉
      (downloaderContents (downloader [Msg.reference ⟨1⟩, Msg.reference ⟨2⟩, Msg.reference ⟨1⟩]
        Table.empty).1 ⟨⟨1⟩, ⟨1⟩⟩).2 :=
  have h := (frame_across_locations [Msg.reference ⟨1⟩, Msg.reference ⟨2⟩, Msg.reference ⟨1⟩]
    Table.empty ⟨1⟩ ⟨⟨1⟩, ⟨1⟩⟩ ⟨1⟩ ⟨2⟩ (by decide) rfl rfl).1
  ⟨h.1, h.2.1, h.2.2 ⟨2⟩ (by decide) ⟨1⟩⟩

/-! ## Lemmas on the steps of the system -/

theorem step_reference (s s' : System) (ref : Reference)
    (h : step s (Action.reference ref) = some s') :
    s.dl = DlState.selecting ∧
    s'.requested = (downloaderRef s.requested ref).1 ∧
    s'.trace = s.trace ++ (downloaderRef s.requested ref).2 ∧
    s'.workers = s.workers ∧ s'.completed = s.completed := by
  cases hdl : s.dl with
  | sending l => simp [step, hdl] at h
  | selecting =>
    simp only [step, hdl, Option.some.injEq] at h
    subst h
    exact ⟨rfl, rfl, rfl, rfl, rfl⟩

theorem step_dispatch (s s' : System) (j : Nat) (h : step s (Action.dispatch j) = some s') :
    ∃ loc, s.dl = DlState.sending loc ∧ s.workers[j]? = some WorkerState.receiving ∧
      s'.workers = s.workers.set j (WorkerState.downloading loc) ∧
      s'.requested = s.requested ∧ s'.trace = s.trace := by
  cases hdl : s.dl with
  | selecting => simp [step, hdl] at h
  | sending l =>
    cases hw : s.workers[j]? with
    | none => simp [step, hdl, hw] at h
    | some w =>
      cases w with
      | downloading l2 => simp [step, hdl, hw] at h
      | sending lc => simp [step, hdl, hw] at h
      | receiving =>
        simp only [step, hdl, hw, Option.some.injEq] at h
        subst h
        exact ⟨l, rfl, rfl, rfl, rfl, rfl⟩

theorem step_download (s s' : System) (j : Nat) (h : step s (Action.download j) = some s') :
    ∃ loc, s.workers[j]? = some (WorkerState.downloading loc) ∧
      s'.workers = s.workers.set j (WorkerState.sending (workerIter loc)) ∧
      s'.requested = s.requested ∧ s'.trace = s.trace := by
  cases hw : s.workers[j]? with
  | none => simp [step, hw] at h
  | some w =>
    cases w with
    | receiving => simp [step, hw] at h
    | sending lc => simp [step, hw] at h
    | downloading l =>
      simp only [step, hw, Option.some.injEq] at h
      subst h
      exact ⟨l, rfl, rfl, rfl, rfl⟩

theorem step_complete (s s' : System) (j : Nat) (h : step s (Action.complete j) = some s') :
    ∃ lc, s.dl = DlState.selecting ∧ s.workers[j]? = some (WorkerState.sending lc) ∧
      s'.workers = s.workers.set j WorkerState.receiving ∧
      s'.requested = (downloaderContents s.requested lc).1 ∧
      s'.trace = s.trace ++ (downloaderContents s.requested lc).2 := by
  cases hdl : s.dl with
  | sending l => simp [step, hdl] at h
  | selecting =>
    cases hw : s.workers[j]? with
    | none => simp [step, hdl, hw] at h
    | some w =>
      cases w with
      | receiving => simp [step, hdl, hw] at h
      | downloading l => simp [step, hdl, hw] at h
      | sending lc =>
        simp only [step, hdl, hw, Option.some.injEq] at h
        subst h
        exact ⟨lc, rfl, rfl, rfl, rfl, rfl⟩

theorem length_step (s s' : System) (a : Action) (h : step s a = some s') :
    s'.workers.length = s.workers.length := by
  cases a with
  | reference ref => rw [(step_reference s s' ref h).2.2.2.1]
  | dispatch j =>
    obtain ⟨loc, _, _, hw, _⟩ := step_dispatch s s' j h
    rw [hw, List.length_set]
  | download j =>
    obtain ⟨loc, _, hw, _⟩ := step_download s s' j h
    rw [hw, List.length_set]
  | complete j =>
    obtain ⟨lc, _, _, hw, _⟩ := step_complete s s' j h
    rw [hw, List.length_set]

theorem length_run (acts : List Action) (s s' : System) (h : run acts s = some s') :
    s'.workers.length = s.workers.length := by
  induction acts generalizing s with
  | nil =>
    simp only [run, Option.some.injEq] at h
    rw [← h]
  | cons a as ih =>
    simp only [run] at h
    cases hstep : step s a with
    | none => simp [hstep] at h
    | some t =>
      rw [hstep] at h
      rw [ih t h, length_step s t a hstep]

/-- What worker `i` owes before a step, followed by the completion for what it
receives in the step, is what it sends in the step followed by what it owes
after it. -/
theorem owed_step (i : Nat) (s s' : System) (a : Action) (h : step s a = some s') :
    owedBy i s ++ (receivedBy i s a).map workerIter = sentBy i s a ++ owedBy i s' := by
  cases a with
  | reference ref =>
    have hw := (step_reference s s' ref h).2.2.2.1
    simp [owedBy, receivedBy, sentBy, hw]
  | dispatch j =>
    obtain ⟨loc, hdl, hj, hw, _⟩ := step_dispatch s s' j h
    by_cases e : j = i
    · subst e
      have hlt : j < s.workers.length := by
        by_contra hge
        rw [List.getElem?_eq_none (Nat.le_of_not_lt hge)] at hj
        exact Option.noConfusion hj
      simp [owedBy, receivedBy, sentBy, hw, hdl, hj, List.getElem?_set_self hlt,
        WorkerState.owed]
    · simp [owedBy, receivedBy, sentBy, hw, hdl, e, List.getElem?_set_ne e]
  | download j =>
    obtain ⟨loc, hj, hw, _⟩ := step_download s s' j h
    by_cases e : j = i
    · subst e
      have hlt : j < s.workers.length := by
        by_contra hge
        rw [List.getElem?_eq_none (Nat.le_of_not_lt hge)] at hj
        exact Option.noConfusion hj
      simp [owedBy, receivedBy, sentBy, hw, hj, List.getElem?_set_self hlt, WorkerState.owed]
    · simp [owedBy, receivedBy, sentBy, hw, List.getElem?_set_ne e]
  | complete j =>
    obtain ⟨lc, hdl, hj, hw, _⟩ := step_complete s s' j h
    by_cases e : j = i
    · subst e
      have hlt : j < s.workers.length := by
        by_contra hge
        rw [List.getElem?_eq_none (Nat.le_of_not_lt hge)] at hj
        exact Option.noConfusion hj
      simp [owedBy, receivedBy, sentBy, hw, hj, List.getElem?_set_self hlt, WorkerState.owed]
    · have hs : sentBy i s (Action.complete j) = [] := by
        simp only [sentBy]
        cases s.workers[i]? with
        | none => rfl
        | some w => cases w <;> simp [e]
      simp [owedBy, receivedBy, hs, hw, List.getElem?_set_ne e]

theorem owed_run (i : Nat) (acts : List Action) (s s' : System) (h : run acts s = some s') :
    owedBy i s ++ (workerReceived i acts s).map workerIter =
      workerSent i acts s ++ owedBy i s' := by
  induction acts generalizing s with
  | nil =>
    simp only [run, Option.some.injEq] at h
    subst h
    simp [workerReceived, workerSent]
  | cons a as ih =>
    simp only [run] at h
    cases hstep : step s a with
    | none => simp [hstep] at h
    | some t =>
      rw [hstep] at h
      have h1 := owed_step i s t a hstep
      have h2 := ih t h
      simp only [workerReceived, workerSent, hstep, List.map_append]
      rw [← List.append_assoc, h1, List.append_assoc, h2, List.append_assoc]

theorem worker_eq_map (locs : List Location) : worker locs = locs.map workerIter := by
  induction locs with
  | nil => rfl
  | cons l ls ih => simp [worker, ih]

theorem owedBy_length_le (i : Nat) (s : System) : (owedBy i s).length ≤ 1 := by
  unfold owedBy
  cases s.workers[i]? with
  | none => simp
  | some w => cases w <;> simp [WorkerState.owed]

theorem owedBy_processReferences (i : Nat) : owedBy i processReferences = [] := by
  unfold owedBy processReferences
  by_cases h : i < nWorkers
  · simp [List.getElem?_replicate, h, WorkerState.owed]
  · simp [List.getElem?_replicate, h]

theorem process_not_mem_downloaderRef (requested : Table) (ref r : Reference)
    (content : Content) : Effect.process r content ∉ (downloaderRef requested ref).2 := by
  cases hr : requested ref.resolveLocation with
  | none => simp [downloaderRef_none _ _ hr]
  | some refs => simp [downloaderRef_some _ _ _ hr]

theorem contentInvariant_processReferences : ContentInvariant processReferences := by
  refine ⟨wellKeyed_empty, ?_, ?_⟩
  · intro lc hmem
    simp [processReferences] at hmem
  · intro ref content hmem
    simp [processReferences] at hmem

theorem contentInvariant_step (s s' : System) (a : Action) (hs : ContentInvariant s)
    (h : step s a = some s') : ContentInvariant s' := by
  obtain ⟨hk, hw, ht⟩ := hs
  cases a with
  | reference ref =>
    obtain ⟨_, hreq, htr, hwk, _⟩ := step_reference s s' ref h
    refine ⟨by rw [hreq]; exact wellKeyed_downloaderRef _ ref hk, by rw [hwk]; exact hw, ?_⟩
    intro r content hmem
    rw [htr, List.mem_append] at hmem
    rcases hmem with hmem | hmem
    · exact ht r content hmem
    · exact absurd hmem (process_not_mem_downloaderRef _ _ _ _)
  | dispatch j =>
    obtain ⟨loc, _, _, hwk, hreq, htr⟩ := step_dispatch s s' j h
    refine ⟨by rw [hreq]; exact hk, ?_, by rw [htr]; exact ht⟩
    intro lc hmem
    rw [hwk] at hmem
    rcases List.mem_or_eq_of_mem_set hmem with hold | hnew
    · exact hw lc hold
    · exact WorkerState.noConfusion hnew
  | download j =>
    obtain ⟨loc, _, hwk, hreq, htr⟩ := step_download s s' j h
    refine ⟨by rw [hreq]; exact hk, ?_, by rw [htr]; exact ht⟩
    intro lc hmem
    rw [hwk] at hmem
    rcases List.mem_or_eq_of_mem_set hmem with hold | hnew
    · exact hw lc hold
    · injection hnew with hnew
      rw [hnew]
      rfl
  | complete j =>
    obtain ⟨lc, _, hj, hwk, hreq, htr⟩ := step_complete s s' j h
    have hlc : lc.content = downloadContent lc.loc := hw lc (List.getElem?_mem hj)
    refine ⟨by rw [hreq]; exact wellKeyed_downloaderContents _ lc hk, ?_, ?_⟩
    · intro lc2 hmem
      rw [hwk] at hmem
      rcases List.mem_or_eq_of_mem_set hmem with hold | hnew
      · exact hw lc2 hold
      · exact WorkerState.noConfusion hnew
    · intro r content hmem
      rw [htr, List.mem_append] at hmem
      rcases hmem with hmem | hmem
      · exact ht r content hmem
      · simp only [downloaderContents, List.mem_map, processContent, Effect.process.injEq]
          at hmem
        obtain ⟨r2, hr2, h1, h2⟩ := hmem
        subst h1
        rw [← h2, hlc, hk lc.loc r2 hr2]

theorem contentInvariant_run (acts : List Action) (s s' : System) (hs : ContentInvariant s)
    (h : run acts s = some s') : ContentInvariant s' := by
  induction acts generalizing s with
  | nil =>
    simp only [run, Option.some.injEq] at h
    subst h
    exact hs
  | cons a as ih =>
    simp only [run] at h
    cases hstep : step s a with
    | none => simp [hstep] at h
    | some t =>
      rw [hstep] at h
      exact ih t (contentInvariant_step s t a hs hstep) h

/-! ## Theorems on the workers and on the contents delivered -/

/-- C12. Worker step: along every run of the system, the completion events
worker `i` has sent, followed by the one it still owes (at most one, for the
location it holds), are the locations it has received, in order, each paired
with its downloaded content; every event sent is `LocContent{loc,
downloadContent(loc)}`; when the worker receives its next location it has
sent the completion of every location received before; a worker inside
`downloadContent(loc)` can always return and reach the send of
`LocContent{loc, downloadContent(loc)}`, and that send is taken as soon as the
downloader is at its `select`. -/
theorem worker_step (acts : List Action) (s : System) (i : Nat)
    (h : run acts processReferences = some s) :
    worker (workerReceived i acts processReferences) =
      workerSent i acts processReferences ++ owedBy i s ∧
    (owedBy i s).length ≤ 1 ∧
    (∀ lc ∈ workerSent i acts processReferences, lc = ⟨lc.loc, downloadContent lc.loc⟩) ∧
    (∀ s' : System, step s (Action.dispatch i) = some s' →
      workerSent i acts processReferences =
        worker (workerReceived i acts processReferences)) ∧
    (∀ loc : Location, s.workers[i]? = some (WorkerState.downloading loc) →
      ∃ s' : System, step s (Action.download i) = some s' ∧
        s'.workers[i]? = some (WorkerState.sending ⟨loc, downloadContent loc⟩)) ∧
    (∀ lc : LocContent, s.workers[i]? = some (WorkerState.sending lc) →
      s.dl = DlState.selecting →
      ∃ s' : System, step s (Action.complete i) = some s' ∧
        s'.workers[i]? = some WorkerState.receiving ∧ s'.completed = s.completed ++ [lc]) := by
  have hrun := owed_run i acts processReferences s h
  rw [owedBy_processReferences, List.nil_append, ← worker_eq_map] at hrun
  have hlt : ∀ w : WorkerState, s.workers[i]? = some w → i < s.workers.length := by
    intro w hw
    by_contra hge
    rw [List.getElem?_eq_none (Nat.le_of_not_lt hge)] at hw
    exact Option.noConfusion hw
  refine ⟨hrun, owedBy_length_le i s, ?_, ?_, ?_, ?_⟩
  rotate_left 2
  · intro loc hw
    refine ⟨{ s with workers := s.workers.set i (WorkerState.sending (workerIter loc)) },
      by simp only [step, hw], ?_⟩
    simp [List.getElem?_set_self (hlt _ hw), workerIter]
  · intro lc hw hdl
    refine ⟨{ s with
        requested := (downloaderContents s.requested lc).1
        trace := s.trace ++ (downloaderContents s.requested lc).2
        workers := s.workers.set i WorkerState.receiving
        completed := s.completed ++ [lc] }, by simp only [step, hw, hdl], ?_, rfl⟩
    simp [List.getElem?_set_self (hlt _ hw)]
  · intro lc hmem
    have hin : lc ∈ worker (workerReceived i acts processReferences) := by
      rw [hrun]; exact List.mem_append_left _ hmem
    rw [worker_eq_map, List.mem_map] at hin
    obtain ⟨loc, _, hloc⟩ := hin
    rw [← hloc]
    rfl
  · intro s' hstep
    obtain ⟨loc, _, hj, _⟩ := step_dispatch s s' i hstep
    have ho : owedBy i s = [] := by simp [owedBy, hj, WorkerState.owed]
    rw [hrun, ho, List.append_nil]

/-- The statement of C12 for worker 0 along the schedule that leads to
`completedState`, in which it receives location 1 and sends its completion. -/
theorem worker_step_witness :
    workerSent 0 [Action.reference ⟨1⟩, Action.dispatch 0, Action.reference ⟨1⟩,
      Action.reference ⟨2⟩, Action.dispatch 1, Action.download 0, Action.complete 0]
      processReferences = [⟨⟨1⟩, ⟨1⟩⟩] ∧
    worker (workerReceived 0 [Action.reference ⟨1⟩, Action.dispatch 0, Action.reference ⟨1⟩,
      Action.reference ⟨2⟩, Action.dispatch 1, Action.download 0, Action.complete 0]
      processReferences) =
      workerSent 0 [Action.reference ⟨1⟩, Action.dispatch 0, Action.reference ⟨1⟩,
        Action.reference ⟨2⟩, Action.dispatch 1, Action.download 0, Action.complete 0]
        processReferences ++ owedBy 0 completedState :=
  ⟨rfl, (worker_step [Action.reference ⟨1⟩, Action.dispatch 0, Action.reference ⟨1⟩,
    Action.reference ⟨2⟩, Action.dispatch 1, Action.download 0, Action.complete 0]
    completedState 0 rfl).1⟩

/-- C13. Bounded pool: `processReferences` starts exactly `nWorkers` = 4
workers, and in every reachable state of the system there are `nWorkers`
workers, of which at most `nWorkers` are executing `downloadContent`. -/
theorem bounded_pool (s : System) (h : Reachable s) :
    processReferences.workers.length = nWorkers ∧ nWorkers = 4 ∧
    s.workers.length = nWorkers ∧ executing s ≤ nWorkers := by
  obtain ⟨acts, hacts⟩ := h
  have hlen : s.workers.length = nWorkers := by
    rw [length_run acts processReferences s hacts]
    simp [processReferences]
  refine ⟨by simp [processReferences], rfl, hlen, ?_⟩
  rw [← hlen]
  exact List.countP_le_length _

/-- The statement of C13 at `sendingState`, where one worker is downloading. -/
theorem bounded_pool_witness :
    Reachable sendingState ∧ executing sendingState = 1 ∧
    sendingState.workers.length = nWorkers ∧ executing sendingState ≤ nWorkers :=
  ⟨⟨[Action.reference ⟨1⟩, Action.dispatch 0, Action.reference ⟨2⟩], rfl⟩, rfl,
    (bounded_pool sendingState
      ⟨[Action.reference ⟨1⟩, Action.dispatch 0, Action.reference ⟨2⟩], rfl⟩).2.2⟩

/-- C14. Content matches reference: in every reachable state of the system,
started from the empty table, every call `processContent(ref, content)` made
so far has `content = downloadContent(ref.resolveLocation())`, that is
`content.index = ref.index`; and every reference stored in the table resolves
to the key of its list. -/
theorem content_matches_reference (s : System) (h : Reachable s) (ref : Reference)
    (content : Content) (hcall : processContent ref content ∈ s.trace) :
    content = downloadContent ref.resolveLocation ∧ content.index = ref.index ∧
    WellKeyed s.requested := by
  obtain ⟨acts, hacts⟩ := h
  obtain ⟨hk, _, ht⟩ :=
    contentInvariant_run acts processReferences s contentInvariant_processReferences hacts
  have hc := ht ref content hcall
  refine ⟨hc, ?_, hk⟩
  rw [hc]
  rfl

/-- The statement of C14 at `completedState` for the call made for reference 1. -/
theorem content_matches_reference_witness :
    Reachable completedState ∧ processContent ⟨1⟩ ⟨1⟩ ∈ completedState.trace ∧
    (⟨1⟩ : Content) = downloadContent (Reference.resolveLocation ⟨1⟩) :=
  ⟨⟨[Action.reference ⟨1⟩, Action.dispatch 0, Action.reference ⟨1⟩, Action.reference ⟨2⟩,
      Action.dispatch 1, Action.download 0, Action.complete 0], rfl⟩,
    by decide,
    (content_matches_reference completedState
      ⟨[Action.reference ⟨1⟩, Action.dispatch 0, Action.reference ⟨1⟩, Action.reference ⟨2⟩,
        Action.dispatch 1, Action.download 0, Action.complete 0], rfl⟩ ⟨1⟩ ⟨1⟩
      (by decide)).1⟩

end Downloader
